import Mathlib

/-!
Verification development for the `graphst` library: directed and undirected
graphs stored as dense adjacency matrices (`src/dgraph.rs`, `src/graph.rs`)
and the single-source shortest-path routine (`src/algorithm/dijkstra.rs`).

Modelling conventions:
* Rust `f32` edge weights are modelled as rationals `ℚ`; the single
  non-finite value the code manipulates, `f32::INFINITY`, is modelled
  explicitly by the `Dist` type used for tentative distances.
* Rust panics (out-of-bounds vector indexing and the explicit `panic!`
  calls guarding invalid arguments) are modelled by `Option`-valued
  functions returning `none`.
* `Vec<Vec<f32>>` is modelled as `List (List ℚ)`, row major, exactly as
  the source lays it out.
-/

namespace Graphst

/-- A tentative distance: a finite rational or positive infinity,
mirroring the use of `f32::INFINITY` in `dijkstra.rs`. -/
inductive Dist where
  | inf : Dist
  | fin : ℚ → Dist
deriving DecidableEq

/-- Strict comparison of distances, mirroring the IEEE `<` on values that
are finite or `+infinity` (the only values the algorithm produces). -/
def Dist.lt : Dist → Dist → Bool
  | .inf, _ => false
  | .fin _, .inf => true
  | .fin a, .fin b => decide (a < b)

/-- Adds a finite edge weight to a distance; `+infinity` absorbs, as in
IEEE arithmetic. -/
def Dist.add : Dist → ℚ → Dist
  | .inf, _ => .inf
  | .fin a, w => .fin (a + w)

/-- Reads cell `[i][j]` of a row-major matrix. `none` models the panic of
an out-of-bounds `Vec` indexing in the source. -/
def cellM (mat : List (List ℚ)) (i j : ℕ) : Option ℚ :=
  (mat.get? i).bind fun row => row.get? j

/-- Writes cell `[i][j]` of a row-major matrix (`adj_mat[i][j] = w` in the
source). `none` models the panic of an out-of-bounds write. -/
def setCell? (mat : List (List ℚ)) (i j : ℕ) (w : ℚ) : Option (List (List ℚ)) :=
  match mat.get? i with
  | none => none
  | some row =>
    match row.get? j with
    | none => none
    | some _ => some (mat.set i (row.set j w))

/-- The `DGraph` struct of `src/dgraph.rs`: a node count and a dense
adjacency matrix. -/
structure DGraph where
  n_nodes : ℕ
  adj_mat : List (List ℚ)
deriving DecidableEq

namespace DGraph

/-- `DGraph::new`: the empty graph. -/
def new : DGraph := ⟨0, []⟩

/-- The edge-insertion loop of `DGraph::from_edges`: for each `(src, dest)`
pair, panic if an index is `>= n_nodes`, panic if the target cell is
already non-zero (repeated edge), otherwise write `1.0`. -/
def fe_go (n_nodes : ℕ) : List (ℕ × ℕ) → List (List ℚ) → Option (List (List ℚ))
  | [], adj_mat => some adj_mat
  | edge :: rest, adj_mat =>
    if n_nodes ≤ edge.1 ∨ n_nodes ≤ edge.2 then none
    else
      match cellM adj_mat edge.1 edge.2 with
      | none => none
      | some v =>
        if v ≠ 0 then none
        else
          match setCell? adj_mat edge.1 edge.2 1 with
          | none => none
          | some adj_mat2 => fe_go n_nodes rest adj_mat2

/-- `DGraph::from_edges`: builds an `n_nodes × n_nodes` zero matrix and
inserts each listed edge with weight `1.0`. -/
def from_edges (n_nodes : ℕ) (edges : List (ℕ × ℕ)) : Option DGraph :=
  (fe_go n_nodes edges (List.replicate n_nodes (List.replicate n_nodes 0))).map
    fun adj_mat => ⟨n_nodes, adj_mat⟩

/-- The edge-insertion loop of `DGraph::from_weighted_edges`: identical to
the unweighted loop but writes the supplied weight. -/
def fwe_go (n_nodes : ℕ) : List (ℕ × ℕ × ℚ) → List (List ℚ) → Option (List (List ℚ))
  | [], adj_mat => some adj_mat
  | edge :: rest, adj_mat =>
    if n_nodes ≤ edge.1 ∨ n_nodes ≤ edge.2.1 then none
    else
      match cellM adj_mat edge.1 edge.2.1 with
      | none => none
      | some v =>
        if v ≠ 0 then none
        else
          match setCell? adj_mat edge.1 edge.2.1 edge.2.2 with
          | none => none
          | some adj_mat2 => fwe_go n_nodes rest adj_mat2

/-- `DGraph::from_weighted_edges`. -/
def from_weighted_edges (n_nodes : ℕ) (edges : List (ℕ × ℕ × ℚ)) : Option DGraph :=
  (fwe_go n_nodes edges (List.replicate n_nodes (List.replicate n_nodes 0))).map
    fun adj_mat => ⟨n_nodes, adj_mat⟩

/-- `DGraph::from_adjacency_matrix`: takes the matrix, panicking unless
every row has length equal to the number of rows. -/
def from_adjacency_matrix (adj_mat : List (List ℚ)) : Option DGraph :=
  if ∀ row ∈ adj_mat, row.length = adj_mat.length then
    some ⟨adj_mat.length, adj_mat⟩
  else none

/-- `Graph::get_n_nodes` for `DGraph`. -/
def get_n_nodes (g : DGraph) : ℕ := g.n_nodes

/-- `Graph::get_nodes` for `DGraph`: `(0..n_nodes).collect()`. -/
def get_nodes (g : DGraph) : List ℕ := List.range g.n_nodes

/-- `Graph::get_adjacency_matrix` for `DGraph`. -/
def get_adjacency_matrix (g : DGraph) : List (List ℚ) := g.adj_mat

/-- `Graph::get_edge` for `DGraph`: panics (outer `none`) on an invalid
index, then returns `some w` for a non-zero cell and `none` (inner) for a
zero cell. -/
def get_edge (g : DGraph) (src dest : ℕ) : Option (Option ℚ) :=
  if g.n_nodes ≤ src then none
  else if g.n_nodes ≤ dest then none
  else
    match cellM g.adj_mat src dest with
    | none => none
    | some w => if w ≠ 0 then some (some w) else some none

/-- `Graph::add_node` for `DGraph`: push a `0.0` onto every existing row,
increment the node count, then push a fresh zero row of the new length. -/
def add_node (g : DGraph) : DGraph :=
  ⟨g.n_nodes + 1,
    (g.adj_mat.map fun row => row ++ [0]) ++ [List.replicate (g.n_nodes + 1) 0]⟩

/-- `Graph::add_edge` for `DGraph`: validate both indices, then write
`1.0` into the single directed cell. -/
def add_edge (g : DGraph) (src dest : ℕ) : Option DGraph :=
  if g.n_nodes ≤ src then none
  else if g.n_nodes ≤ dest then none
  else
    match setCell? g.adj_mat src dest 1 with
    | none => none
    | some adj_mat2 => some ⟨g.n_nodes, adj_mat2⟩

/-- `Graph::add_weighted_edge` for `DGraph`. -/
def add_weighted_edge (g : DGraph) (src dest : ℕ) (weight : ℚ) : Option DGraph :=
  if g.n_nodes ≤ src then none
  else if g.n_nodes ≤ dest then none
  else
    match setCell? g.adj_mat src dest weight with
    | none => none
    | some adj_mat2 => some ⟨g.n_nodes, adj_mat2⟩

end DGraph

/-- The `Graph` struct of `src/graph.rs`: same dense representation, with
the connection-mutator surface that includes the undirected variants. -/
structure Graph where
  n_nodes : ℕ
  adj_mat : List (List ℚ)
deriving DecidableEq

namespace Graph

/-- `Graph::new`: the empty graph. -/
def new : Graph := ⟨0, []⟩

/-- `Graph::from_adjacency_matrix`. -/
def from_adjacency_matrix (adj_mat : List (List ℚ)) : Option Graph :=
  if ∀ row ∈ adj_mat, row.length = adj_mat.length then
    some ⟨adj_mat.length, adj_mat⟩
  else none

/-- `Graph::get_adjacency_matrix`. -/
def get_adjacency_matrix (g : Graph) : List (List ℚ) := g.adj_mat

/-- `Graph::get_edge`: identical validation and lookup to the `DGraph`
version. -/
def get_edge (g : Graph) (src dest : ℕ) : Option (Option ℚ) :=
  if g.n_nodes ≤ src then none
  else if g.n_nodes ≤ dest then none
  else
    match cellM g.adj_mat src dest with
    | none => none
    | some w => if w ≠ 0 then some (some w) else some none

/-- `Graph::add_connection`: validate both indices, then set the single
directed cell to `1.0`. -/
def add_connection (g : Graph) (src dest : ℕ) : Option Graph :=
  if g.n_nodes ≤ src then none
  else if g.n_nodes ≤ dest then none
  else
    match setCell? g.adj_mat src dest 1 with
    | none => none
    | some adj_mat2 => some ⟨g.n_nodes, adj_mat2⟩

/-- `Graph::add_undirected_connection`: validate both indices, then set
both symmetric cells to `1.0` (`[src][dest]` first, then `[dest][src]`). -/
def add_undirected_connection (g : Graph) (src dest : ℕ) : Option Graph :=
  if g.n_nodes ≤ src then none
  else if g.n_nodes ≤ dest then none
  else
    match setCell? g.adj_mat src dest 1 with
    | none => none
    | some adj_mat2 =>
      match setCell? adj_mat2 dest src 1 with
      | none => none
      | some adj_mat3 => some ⟨g.n_nodes, adj_mat3⟩

/-- `Graph::add_weighted_connection`. -/
def add_weighted_connection (g : Graph) (src dest : ℕ) (weight : ℚ) : Option Graph :=
  if g.n_nodes ≤ src then none
  else if g.n_nodes ≤ dest then none
  else
    match setCell? g.adj_mat src dest weight with
    | none => none
    | some adj_mat2 => some ⟨g.n_nodes, adj_mat2⟩

/-- `Graph::add_undirected_weighted_connection`: validate both indices,
then write the weight into both symmetric cells. -/
def add_undirected_weighted_connection (g : Graph) (src dest : ℕ) (weight : ℚ) :
    Option Graph :=
  if g.n_nodes ≤ src then none
  else if g.n_nodes ≤ dest then none
  else
    match setCell? g.adj_mat src dest weight with
    | none => none
    | some adj_mat2 =>
      match setCell? adj_mat2 dest src weight with
      | none => none
      | some adj_mat3 => some ⟨g.n_nodes, adj_mat3⟩

end Graph

/-- A matrix with exactly `n` rows, each of length `n` (the squareness
invariant the spec states for both graph variants). -/
def SquareMat (n : ℕ) (mat : List (List ℚ)) : Prop :=
  mat.length = n ∧ ∀ row ∈ mat, row.length = n

instance (n : ℕ) (mat : List (List ℚ)) : Decidable (SquareMat n mat) :=
  inferInstanceAs (Decidable (mat.length = n ∧ ∀ row ∈ mat, row.length = n))

/-- Squareness of a `DGraph`. -/
def DGraph.Square (g : DGraph) : Prop := SquareMat g.n_nodes g.adj_mat

instance (g : DGraph) : Decidable g.Square :=
  inferInstanceAs (Decidable (SquareMat g.n_nodes g.adj_mat))

/-- Squareness of a `Graph`. -/
def Graph.Square (g : Graph) : Prop := SquareMat g.n_nodes g.adj_mat

instance (g : Graph) : Decidable g.Square :=
  inferInstanceAs (Decidable (SquareMat g.n_nodes g.adj_mat))

/-- Symmetry of a `Graph`'s matrix inside the `n_nodes × n_nodes` window,
the undirected invariant of the spec. -/
def Graph.Symm (g : Graph) : Prop :=
  ∀ i j, i < g.n_nodes → j < g.n_nodes → cellM g.adj_mat i j = cellM g.adj_mat j i

/-- The intermediate-state invariant of the `from_edges` insertion loop:
the matrix is square and cell `[i][j]` is `1.0` exactly when `(i, j)` is
among the already-processed edges, `0.0` otherwise. -/
def EdgesInv (n : ℕ) (done : List (ℕ × ℕ)) (mat : List (List ℚ)) : Prop :=
  SquareMat n mat ∧
  ∀ i < n, ∀ j < n, cellM mat i j = some (if (i, j) ∈ done then 1 else 0)

/-- The predicate "this tentative distance is not negative": trivially
true at `+infinity`, and `0 ≤ q` at a finite value. -/
def DNonneg : Dist → Prop
  | .inf => True
  | .fin q => 0 ≤ q

/-- Reachability along non-zero adjacency-matrix cells, the spec-level
notion "node `t` is reachable from the source `s`". -/
inductive Reaches (g : DGraph) (s : ℕ) : ℕ → Prop
  | refl : Reaches g s s
  | step {u v : ℕ} {w : ℚ} : Reaches g s u → cellM g.adj_mat u v = some w →
      w ≠ 0 → Reaches g s v

/-- The `DGraph` values reachable from the constructors of `dgraph.rs` by
sequences of successful operations (failed calls produce no graph). -/
inductive ReachableD : DGraph → Prop
  | new : ReachableD DGraph.new
  | from_edges {n : ℕ} {es : List (ℕ × ℕ)} {g : DGraph} :
      DGraph.from_edges n es = some g → ReachableD g
  | from_weighted_edges {n : ℕ} {es : List (ℕ × ℕ × ℚ)} {g : DGraph} :
      DGraph.from_weighted_edges n es = some g → ReachableD g
  | from_adjacency_matrix {m : List (List ℚ)} {g : DGraph} :
      DGraph.from_adjacency_matrix m = some g → ReachableD g
  | add_node {g : DGraph} : ReachableD g → ReachableD g.add_node
  | add_edge {g g2 : DGraph} {src dest : ℕ} : ReachableD g →
      g.add_edge src dest = some g2 → ReachableD g2
  | add_weighted_edge {g g2 : DGraph} {src dest : ℕ} {w : ℚ} : ReachableD g →
      g.add_weighted_edge src dest w = some g2 → ReachableD g2

/-- The scanning loop of `min_distance_node` in `dijkstra.rs`, carrying
the running `(min_dist, min_idx)` pair. Reads of `dist[node]` and
`visited[node]` mirror the source's short-circuit order; `none` models an
out-of-bounds read. -/
def mdnAux (dist : List Dist) (visited : List Bool) :
    List ℕ → Dist → ℕ → Option ℕ
  | [], _, min_idx => some min_idx
  | node :: rest, min_dist, min_idx =>
    match dist.get? node with
    | none => none
    | some d =>
      if Dist.lt d min_dist then
        match visited.get? node with
        | none => none
        | some v =>
          if v then mdnAux dist visited rest min_dist min_idx
          else mdnAux dist visited rest d node
      else mdnAux dist visited rest min_dist min_idx

/-- `min_distance_node`: scans all nodes for the unvisited one with
strictly minimal distance; `min_idx` starts at `g.get_n_nodes()`, an
invalid node, and is returned unchanged if no unvisited node has a
distance below `+infinity`. -/
def min_distance_node (g : DGraph) (dist : List Dist) (visited : List Bool) :
    Option ℕ :=
  mdnAux dist visited g.get_nodes Dist.inf g.n_nodes

/-- The inner relaxation loop of `dijkstra`: for each node `n`, look up the
edge `current -> n` and relax it when `n` is unvisited and the path through
`current` is shorter. -/
def relaxAll (g : DGraph) (current : ℕ) :
    List ℕ → List Dist → List Bool → Option (List Dist)
  | [], dist, _ => some dist
  | n :: rest, dist, visited =>
    match g.get_edge current n with
    | none => none
    | some none => relaxAll g current rest dist visited
    | some (some edge_weight) =>
      match visited.get? n with
      | none => none
      | some true => relaxAll g current rest dist visited
      | some false =>
        match dist.get? n, dist.get? current with
        | some dn, some dc =>
          if Dist.lt (dc.add edge_weight) dn then
            relaxAll g current rest (dist.set n (dc.add edge_weight)) visited
          else relaxAll g current rest dist visited
        | _, _ => none

/-- One iteration of the main `dijkstra` loop: select the closest
unvisited node, mark it visited (`none` when the selected index is out of
bounds for `visited`), then run the relaxation pass. -/
def dijkstraStep (g : DGraph) (dist : List Dist) (visited : List Bool) :
    Option (List Dist × List Bool) :=
  match min_distance_node g dist visited with
  | none => none
  | some current =>
    if current < visited.length then
      match relaxAll g current g.get_nodes dist (visited.set current true) with
      | none => none
      | some dist2 => some (dist2, visited.set current true)
    else none

/-- The main loop of `dijkstra`, one `dijkstraStep` per node. -/
def dijkstraLoop (g : DGraph) : ℕ → List Dist → List Bool → Option (List Dist)
  | 0, dist, _ => some dist
  | k + 1, dist, visited =>
    match dijkstraStep g dist visited with
    | none => none
    | some (dist2, visited2) => dijkstraLoop g k dist2 visited2

/-- `dijkstra`: initialise `dist` to `+infinity` everywhere, set
`dist[src] = 0.0` (a panic, hence `none`, when `src` is out of bounds for
the freshly built vector), then iterate the step once per node. -/
def dijkstra (g : DGraph) (src : ℕ) : Option (List Dist) :=
  let dist := List.replicate g.get_n_nodes Dist.inf
  let visited := List.replicate g.get_n_nodes false
  match dist.get? src with
  | none => none
  | some _ => dijkstraLoop g g.get_n_nodes (dist.set src (Dist.fin 0)) visited

end Graphst

unseal Rat.add

namespace Graphst

theorem lget?_lt {α : Type} {l : List α} {i : ℕ} {a : α}
    (h : l.get? i = some a) : i < l.length := by
  induction l generalizing i with
  | nil => cases h
  | cons x xs ih =>
    cases i with
    | zero => exact Nat.succ_pos _
    | succ i2 => exact Nat.succ_lt_succ (ih h)

theorem lget?_of_lt {α : Type} :
    ∀ (l : List α) (i : ℕ), i < l.length → ∃ a, l.get? i = some a := by
  intro l
  induction l with
  | nil => intro i h; cases h
  | cons x xs ih =>
    intro i h
    cases i with
    | zero => exact ⟨x, rfl⟩
    | succ i2 => exact ih i2 (Nat.lt_of_succ_lt_succ h)

theorem lmem_of_get? {α : Type} :
    ∀ {l : List α} {i : ℕ} {a : α}, l.get? i = some a → a ∈ l := by
  intro l
  induction l with
  | nil => intro i a h; cases h
  | cons x xs ih =>
    intro i a h
    cases i with
    | zero => cases h; exact List.mem_cons_self x xs
    | succ i2 => exact List.mem_cons_of_mem x (ih h)

theorem lget?_set_self {α : Type} (a : α) :
    ∀ (l : List α) (j : ℕ), j < l.length → (l.set j a).get? j = some a := by
  intro l
  induction l with
  | nil => intro j h; cases h
  | cons x xs ih =>
    intro j h
    cases j with
    | zero => rfl
    | succ j2 => exact ih j2 (Nat.lt_of_succ_lt_succ h)

theorem lget?_set_ne {α : Type} (a : α) :
    ∀ (l : List α) (i j : ℕ), i ≠ j → (l.set i a).get? j = l.get? j := by
  intro l
  induction l with
  | nil => intro i j _; rfl
  | cons x xs ih =>
    intro i j h
    cases i with
    | zero =>
      cases j with
      | zero => exact absurd rfl h
      | succ j2 => rfl
    | succ i2 =>
      cases j with
      | zero => rfl
      | succ j2 => exact ih i2 j2 fun hh => h (congrArg Nat.succ hh)

theorem lget?_replicate {α : Type} (a : α) :
    ∀ (n i : ℕ), (List.replicate n a).get? i = if i < n then some a else none := by
  intro n
  induction n with
  | zero => intro i; simp
  | succ n2 ih =>
    intro i
    cases i with
    | zero => simp [List.replicate]
    | succ i2 =>
      simpa [List.replicate, Nat.succ_lt_succ_iff] using ih i2

theorem lmem_set {α : Type} (a : α) :
    ∀ (l : List α) (i : ℕ) (b : α), b ∈ l.set i a → b ∈ l ∨ b = a := by
  intro l
  induction l with
  | nil => intro i b h; cases h
  | cons x xs ih =>
    intro i b h
    cases i with
    | zero =>
      rcases List.mem_cons.mp h with h1 | h1
      · exact Or.inr h1
      · exact Or.inl (List.mem_cons_of_mem x h1)
    | succ i2 =>
      rcases List.mem_cons.mp h with h1 | h1
      · exact Or.inl (h1 ▸ List.mem_cons_self x xs)
      · rcases ih i2 b h1 with h2 | h2
        · exact Or.inl (List.mem_cons_of_mem x h2)
        · exact Or.inr h2

theorem lcount_set_true :
    ∀ (l : List Bool) (i : ℕ), l.get? i = some false →
      (l.set i true).count true = l.count true + 1 := by
  intro l
  induction l with
  | nil => intro i h; cases h
  | cons x xs ih =>
    intro i h
    cases i with
    | zero =>
      cases h
      simp [List.count_cons]
    | succ i2 =>
      have h2 := ih i2 h
      cases x <;> simp [List.count_cons, h2]

theorem lcount_true_lt :
    ∀ (l : List Bool) (i : ℕ), l.get? i = some false → l.count true < l.length := by
  intro l
  induction l with
  | nil => intro i h; cases h
  | cons x xs ih =>
    intro i h
    cases i with
    | zero =>
      cases h
      have hle := List.count_le_length (a := true) (l := xs)
      simp [List.count_cons]
      omega
    | succ i2 =>
      have h2 := ih i2 h
      cases x <;> simp [List.count_cons] <;> omega

theorem cellM_of_row {mat : List (List ℚ)} {row : List ℚ} {i : ℕ}
    (hrow : mat.get? i = some row) (j : ℕ) : cellM mat i j = row.get? j := by
  unfold cellM
  rw [hrow]
  rfl

theorem cellM_of_no_row {mat : List (List ℚ)} {i : ℕ}
    (hrow : mat.get? i = none) (j : ℕ) : cellM mat i j = none := by
  unfold cellM
  rw [hrow]
  rfl

theorem setCell?_eq_some {mat mat' : List (List ℚ)} {i j : ℕ} {w : ℚ}
    (h : setCell? mat i j w = some mat') :
    ∃ row v, mat.get? i = some row ∧ row.get? j = some v ∧
      mat' = mat.set i (row.set j w) := by
  unfold setCell? at h
  split at h
  · cases h
  · rename_i row hrow
    split at h
    · cases h
    · rename_i v hv
      cases h
      exact ⟨row, v, hrow, hv, rfl⟩

theorem setCell?_some_of_cell {mat : List (List ℚ)} {i j : ℕ} {v : ℚ} (w : ℚ)
    (h : cellM mat i j = some v) :
    ∃ row, mat.get? i = some row ∧ row.get? j = some v ∧
      setCell? mat i j w = some (mat.set i (row.set j w)) := by
  cases hrow : mat.get? i with
  | none => rw [cellM_of_no_row hrow] at h; cases h
  | some row =>
    rw [cellM_of_row hrow] at h
    refine ⟨row, rfl, h, ?_⟩
    simp only [setCell?, hrow, h]

theorem cellM_set {mat : List (List ℚ)} {row : List ℚ} {i j : ℕ} (w : ℚ)
    (hrow : mat.get? i = some row) (hj : j < row.length) (a b : ℕ) :
    cellM (mat.set i (row.set j w)) a b =
      if i = a ∧ j = b then some w else cellM mat a b := by
  by_cases ha : i = a
  · subst ha
    rw [cellM_of_row (lget?_set_self (row.set j w) mat i (lget?_lt hrow)),
      cellM_of_row hrow]
    by_cases hb : j = b
    · subst hb
      rw [lget?_set_self _ _ _ hj, if_pos ⟨rfl, rfl⟩]
    · rw [lget?_set_ne _ _ _ _ hb, if_neg fun hc => hb hc.2]
  · rw [if_neg fun hc => ha hc.1]
    unfold cellM
    rw [lget?_set_ne _ _ _ _ ha]

theorem SquareMat_set {n : ℕ} {mat : List (List ℚ)} {row : List ℚ} {i j : ℕ} (w : ℚ)
    (hsq : SquareMat n mat) (hrow : mat.get? i = some row) :
    SquareMat n (mat.set i (row.set j w)) := by
  constructor
  · rw [List.length_set]; exact hsq.1
  · intro r hr
    rcases lmem_set _ _ _ _ hr with h | h
    · exact hsq.2 r h
    · rw [h, List.length_set]; exact hsq.2 row (lmem_of_get? hrow)

theorem cellM_square {n : ℕ} {mat : List (List ℚ)} (hsq : SquareMat n mat)
    {i j : ℕ} (hi : i < n) (hj : j < n) : ∃ w, cellM mat i j = some w := by
  obtain ⟨row, hrow⟩ := lget?_of_lt mat i (hsq.1 ▸ hi)
  obtain ⟨w, hw⟩ := lget?_of_lt row j ((hsq.2 row (lmem_of_get? hrow)) ▸ hj)
  exact ⟨w, by rw [cellM_of_row hrow, hw]⟩

theorem guard2_none {β : Type} {n src dest : ℕ} (x : Option β)
    (h : n ≤ src ∨ n ≤ dest) :
    (if n ≤ src then none else if n ≤ dest then none else x) = none := by
  rcases h with h | h
  · rw [if_pos h]
  · by_cases hs : n ≤ src
    · rw [if_pos hs]
    · rw [if_neg hs, if_pos h]

theorem get_edge_some_some {g : DGraph} {a b : ℕ} {w : ℚ}
    (h : g.get_edge a b = some (some w)) :
    a < g.n_nodes ∧ b < g.n_nodes ∧ cellM g.adj_mat a b = some w ∧ w ≠ 0 := by
  unfold DGraph.get_edge at h
  split at h
  · cases h
  · split at h
    · cases h
    · rename_i ha hb
      split at h
      · cases h
      · rename_i v hc
        split at h
        · rename_i hv
          cases h
          exact ⟨Nat.lt_of_not_le ha, Nat.lt_of_not_le hb, hc, hv⟩
        · cases h

theorem mdnAux_all_inf (dist : List Dist) (visited : List Bool) :
    ∀ (nodes : List ℕ) (idx : ℕ),
      (∀ node ∈ nodes, ∃ d, dist.get? node = some d ∧
        (d ≠ Dist.inf → visited.get? node = some true)) →
      mdnAux dist visited nodes Dist.inf idx = some idx := by
  intro nodes
  induction nodes with
  | nil => intro idx _; rfl
  | cons node rest ih =>
    intro idx h
    obtain ⟨d, hd, hv⟩ := h node (List.mem_cons_self _ _)
    have hrest := ih idx fun x hx => h x (List.mem_cons_of_mem _ hx)
    cases d with
    | inf =>
      simp only [mdnAux, hd, Dist.lt]
      exact hrest
    | fin q =>
      have hvt := hv fun hc => Dist.noConfusion hc
      simp only [mdnAux, hd, Dist.lt, hvt]
      exact hrest

/-- **C1 (amended).** When, at some iteration, every unvisited node has a
tentative distance of `+infinity`, `min_distance_node` selects no node at
all: the strict comparison against the initial `f32::INFINITY` never
fires, so it returns its default `g.get_n_nodes()` — one past the last
valid index. The subsequent `visited[current] = true` write in `dijkstra`
is then out of bounds, so the iteration is not a harmless relaxation pass:
the whole call fails instead of returning a vector with `+infinity`
entries for unreachable nodes. -/
theorem min_distance_node_all_inf (g : DGraph) (dist : List Dist)
    (visited : List Bool) (hd : dist.length = g.n_nodes)
    (hv : visited.length = g.n_nodes)
    (h : ∀ i < g.n_nodes, visited.get? i = some false →
      dist.get? i = some Dist.inf) :
    min_distance_node g dist visited = some g.n_nodes ∧
    dijkstraStep g dist visited = none ∧
    ∀ k, dijkstraLoop g (k + 1) dist visited = none := by
  have hm : min_distance_node g dist visited = some g.n_nodes := by
    unfold min_distance_node
    apply mdnAux_all_inf
    intro node hn
    have hlt : node < g.n_nodes := List.mem_range.mp hn
    obtain ⟨d, hdn⟩ := lget?_of_lt dist node (hd ▸ hlt)
    obtain ⟨v, hvn⟩ := lget?_of_lt visited node (hv ▸ hlt)
    refine ⟨d, hdn, fun hne => ?_⟩
    cases v
    · have hsome : some d = some Dist.inf := hdn.symm.trans (h node hlt hvn)
      exact absurd (Option.some.inj hsome) hne
    · exact hvn
  have hs : dijkstraStep g dist visited = none := by
    unfold dijkstraStep
    rw [hm]
    simp only [hv]
    rw [if_neg (Nat.lt_irrefl _)]
  refine ⟨hm, hs, fun k => ?_⟩
  unfold dijkstraLoop
  rw [hs]

/-- Witness for the amended C1 at a concrete one-node state. -/
theorem min_distance_node_all_inf_witness :
    min_distance_node ⟨1, [[0]]⟩ [Dist.inf] [false] = some 1 ∧
    dijkstraStep ⟨1, [[0]]⟩ [Dist.inf] [false] = none ∧
    dijkstraLoop ⟨1, [[0]]⟩ 1 [Dist.inf] [false] = none := by
  have h := min_distance_node_all_inf ⟨1, [[0]]⟩ [Dist.inf] [false]
    (by decide) (by decide) (by decide)
  exact ⟨h.1, h.2.1, h.2.2 0⟩

/-- **C1 (counterexample).** On the two-node graph with no edges, node 1
is unreachable from source 0, yet `dijkstra` does not return a distance
vector with `+infinity` at index 1 (nor any vector): it fails. -/
theorem dijkstra_unreachable_counterexample :
    DGraph.from_edges 2 [] = some ⟨2, [[0, 0], [0, 0]]⟩ ∧
    dijkstra ⟨2, [[0, 0], [0, 0]]⟩ 0 = none ∧
    dijkstra ⟨2, [[0, 0], [0, 0]]⟩ 0 ≠ some [Dist.fin 0, Dist.inf] := by
  decide

/-- **C2 (amended).** For the empty graph the freshly built distance
vector is empty, so the initialisation `dist[src] = 0.0` is out of bounds
for every source argument: `dijkstra` fails instead of returning the empty
distance vector. -/
theorem dijkstra_empty_graph_fails (src : ℕ) :
    dijkstra DGraph.new src = none := rfl

/-- **C2 (counterexample).** On the empty graph with source 0, `dijkstra`
fails; it does not return the empty vector. -/
theorem dijkstra_empty_graph_counterexample :
    dijkstra DGraph.new 0 = none ∧ dijkstra DGraph.new 0 ≠ some [] := by
  decide

/-- **C3 (counterexample).** A non-negative-weight graph (two nodes, one
self-loop `1 -> 1` of weight 1) with valid source 0 on which `dijkstra`
returns no vector at all — node 1 is unreachable, so the claimed
conclusion `length = nodeCount` fails because there is no result vector. -/
theorem dijkstra_nonneg_counterexample :
    (∀ row ∈ ([[0, 0], [0, 1]] : List (List ℚ)), ∀ v ∈ row, 0 ≤ v) ∧
    dijkstra ⟨2, [[0, 0], [0, 1]]⟩ 0 = none := by
  decide

/-- **C10.** Concrete scenario 1 of the spec: three nodes, directed edges
`(0,1), (1,2), (2,2)` each of weight 1.0 built by `from_edges`;
`dijkstra(g, 0)` returns exactly `[0.0, 1.0, 2.0]`. -/
theorem dijkstra_concrete_scenario1 :
    DGraph.from_edges 3 [(0, 1), (1, 2), (2, 2)] =
      some ⟨3, [[0, 1, 0], [0, 0, 1], [0, 0, 1]]⟩ ∧
    dijkstra ⟨3, [[0, 1, 0], [0, 0, 1], [0, 0, 1]]⟩ 0 =
      some [Dist.fin 0, Dist.fin 1, Dist.fin 2] := by
  decide

/-- **C9.** Round trip through `from_adjacency_matrix`: when every row of
`m` has length equal to the number of rows the constructor succeeds and
`get_adjacency_matrix` returns `m` unchanged; when some row has a
different length the constructor fails and no graph is created. -/
theorem from_adjacency_matrix_round_trip (m : List (List ℚ)) :
    ((∀ row ∈ m, row.length = m.length) →
      ∃ g, DGraph.from_adjacency_matrix m = some g ∧
        g.get_adjacency_matrix = m ∧ g.n_nodes = m.length) ∧
    (¬ (∀ row ∈ m, row.length = m.length) →
      DGraph.from_adjacency_matrix m = none) := by
  constructor
  · intro h
    refine ⟨⟨m.length, m⟩, ?_, rfl, rfl⟩
    unfold DGraph.from_adjacency_matrix
    rw [if_pos h]
  · intro h
    unfold DGraph.from_adjacency_matrix
    rw [if_neg h]

/-- Witness for C9 at a concrete square matrix. -/
theorem from_adjacency_matrix_round_trip_witness :
    ∃ g, DGraph.from_adjacency_matrix [[0, 1], [2, 0]] = some g ∧
      g.get_adjacency_matrix = [[0, 1], [2, 0]] ∧
      g.n_nodes = ([[0, 1], [2, 0]] : List (List ℚ)).length :=
  (from_adjacency_matrix_round_trip [[0, 1], [2, 0]]).1 (by decide)

/-- **C5.** Every index-taking query or mutator of both graph types fails
when `src` or `dest` is `>= nodeCount()`; the validation happens before
any write, so the failing call produces no mutated graph — the graph value
passed in is untouched and remains the caller's state. -/
theorem invalid_index_rejected (g : DGraph) (G2 : Graph) (src dest : ℕ)
    (w : ℚ) (hg : g.n_nodes ≤ src ∨ g.n_nodes ≤ dest)
    (hG : G2.n_nodes ≤ src ∨ G2.n_nodes ≤ dest) :
    g.get_edge src dest = none ∧ g.add_edge src dest = none ∧
    g.add_weighted_edge src dest w = none ∧
    G2.get_edge src dest = none ∧ G2.add_connection src dest = none ∧
    G2.add_weighted_connection src dest w = none ∧
    G2.add_undirected_connection src dest = none ∧
    G2.add_undirected_weighted_connection src dest w = none :=
  ⟨guard2_none _ hg, guard2_none _ hg, guard2_none _ hg, guard2_none _ hG,
    guard2_none _ hG, guard2_none _ hG, guard2_none _ hG, guard2_none _ hG⟩

theorem setCell?_square {n : ℕ} {mat : List (List ℚ)} (hsq : SquareMat n mat)
    {i j : ℕ} (hi : i < n) (hj : j < n) (w : ℚ) :
    ∃ mat', setCell? mat i j w = some mat' ∧ SquareMat n mat' ∧
      ∀ a b, cellM mat' a b = if i = a ∧ j = b then some w else cellM mat a b := by
  obtain ⟨v, hv⟩ := cellM_square hsq hi hj
  obtain ⟨row, hrow, hvj, hset⟩ := setCell?_some_of_cell w hv
  exact ⟨mat.set i (row.set j w), hset, SquareMat_set w hsq hrow,
    cellM_set w hrow (lget?_lt hvj)⟩

theorem undirected_double_set {n : ℕ} {mat : List (List ℚ)} (hsq : SquareMat n mat)
    {src dest : ℕ} (hs : src < n) (hd : dest < n) (w : ℚ) :
    ∃ m2 m3, setCell? mat src dest w = some m2 ∧
      setCell? m2 dest src w = some m3 ∧ SquareMat n m3 ∧
      cellM m3 src dest = some w ∧ cellM m3 dest src = some w ∧
      (∀ a b, ¬ (a = src ∧ b = dest) → ¬ (a = dest ∧ b = src) →
        cellM m3 a b = cellM mat a b) ∧
      ((∀ i j, i < n → j < n → cellM mat i j = cellM mat j i) →
        ∀ i j, i < n → j < n → cellM m3 i j = cellM m3 j i) := by
  obtain ⟨m2, hset2, hsq2, hcell2⟩ := setCell?_square hsq hs hd w
  obtain ⟨m3, hset3, hsq3, hcell3⟩ := setCell?_square hsq2 hd hs w
  have hcell : ∀ a b, cellM m3 a b =
      if dest = a ∧ src = b then some w
      else if src = a ∧ dest = b then some w else cellM mat a b := by
    intro a b
    rw [hcell3 a b]
    by_cases h1 : dest = a ∧ src = b
    · rw [if_pos h1, if_pos h1]
    · rw [if_neg h1, if_neg h1, hcell2 a b]
  refine ⟨m2, m3, hset2, hset3, hsq3, ?_, ?_, ?_, ?_⟩
  · rw [hcell]
    by_cases hds : dest = src
    · rw [if_pos ⟨hds, hds.symm⟩]
    · rw [if_neg fun hc => hds hc.1, if_pos ⟨rfl, rfl⟩]
  · rw [hcell, if_pos ⟨rfl, rfl⟩]
  · intro a b h1 h2
    rw [hcell, if_neg fun hc => h2 ⟨hc.1.symm, hc.2.symm⟩,
      if_neg fun hc => h1 ⟨hc.1.symm, hc.2.symm⟩]
  · intro hSymm i j hi hj
    rw [hcell i j, hcell j i]
    by_cases c1 : dest = i ∧ src = j
    · rw [if_pos c1]
      by_cases c1' : dest = j ∧ src = i
      · rw [if_pos c1']
      · rw [if_neg c1', if_pos ⟨c1.2, c1.1⟩]
    · rw [if_neg c1]
      by_cases c2 : src = i ∧ dest = j
      · rw [if_pos c2, if_pos ⟨c2.2, c2.1⟩]
      · rw [if_neg c2, if_neg fun hc => c2 ⟨hc.2, hc.1⟩,
          if_neg fun hc => c1 ⟨hc.2, hc.1⟩]
        exact hSymm i j hi hj

/-- **C8.** The undirected mutators of `graph.rs` write the same value
into both symmetric cells: `add_undirected_connection` writes `1.0` into
`[src][dest]` and `[dest][src]`, and `add_undirected_weighted_connection`
writes the given weight into both; every other cell is untouched, so
matrix symmetry holds after the mutation whenever it held before. The
squareness hypothesis holds for every graph the constructors can build. -/
theorem undirected_mutators_symmetric (g : Graph) (src dest : ℕ) (w : ℚ)
    (hsq : g.Square) (hs : src < g.n_nodes) (hd : dest < g.n_nodes) :
    (∃ g2, g.add_undirected_weighted_connection src dest w = some g2 ∧
      g2.n_nodes = g.n_nodes ∧ g2.Square ∧
      cellM g2.adj_mat src dest = some w ∧
      cellM g2.adj_mat dest src = some w ∧
      (∀ a b, ¬ (a = src ∧ b = dest) → ¬ (a = dest ∧ b = src) →
        cellM g2.adj_mat a b = cellM g.adj_mat a b) ∧
      (g.Symm → g2.Symm)) ∧
    (∃ g2, g.add_undirected_connection src dest = some g2 ∧
      g2.n_nodes = g.n_nodes ∧ g2.Square ∧
      cellM g2.adj_mat src dest = some 1 ∧
      cellM g2.adj_mat dest src = some 1 ∧
      (∀ a b, ¬ (a = src ∧ b = dest) → ¬ (a = dest ∧ b = src) →
        cellM g2.adj_mat a b = cellM g.adj_mat a b) ∧
      (g.Symm → g2.Symm)) := by
  constructor
  · obtain ⟨m2, m3, hset2, hset3, hsq3, hc1, hc2, hother, hsymm⟩ :=
      undirected_double_set hsq hs hd w
    refine ⟨⟨g.n_nodes, m3⟩, ?_, rfl, hsq3, hc1, hc2, hother, hsymm⟩
    unfold Graph.add_undirected_weighted_connection
    rw [if_neg (Nat.not_le.mpr hs), if_neg (Nat.not_le.mpr hd)]
    simp only [hset2, hset3]
  · obtain ⟨m2, m3, hset2, hset3, hsq3, hc1, hc2, hother, hsymm⟩ :=
      undirected_double_set hsq hs hd 1
    refine ⟨⟨g.n_nodes, m3⟩, ?_, rfl, hsq3, hc1, hc2, hother, hsymm⟩
    unfold Graph.add_undirected_connection
    rw [if_neg (Nat.not_le.mpr hs), if_neg (Nat.not_le.mpr hd)]
    simp only [hset2, hset3]

/-- Witness for C8 on a concrete 2-node graph with `src = 0`, `dest = 1`,
weight 5. -/
theorem undirected_mutators_symmetric_witness :
    (∃ g2, (Graph.mk 2 [[0, 0], [0, 0]]).add_undirected_weighted_connection
        0 1 5 = some g2 ∧
      g2.n_nodes = 2 ∧ g2.Square ∧
      cellM g2.adj_mat 0 1 = some 5 ∧ cellM g2.adj_mat 1 0 = some 5 ∧
      (∀ a b, ¬ (a = 0 ∧ b = 1) → ¬ (a = 1 ∧ b = 0) →
        cellM g2.adj_mat a b = cellM ([[0, 0], [0, 0]]) a b) ∧
      ((Graph.mk 2 [[0, 0], [0, 0]]).Symm → g2.Symm)) ∧
    (∃ g2, (Graph.mk 2 [[0, 0], [0, 0]]).add_undirected_connection 0 1 =
        some g2 ∧
      g2.n_nodes = 2 ∧ g2.Square ∧
      cellM g2.adj_mat 0 1 = some 1 ∧ cellM g2.adj_mat 1 0 = some 1 ∧
      (∀ a b, ¬ (a = 0 ∧ b = 1) → ¬ (a = 1 ∧ b = 0) →
        cellM g2.adj_mat a b = cellM ([[0, 0], [0, 0]]) a b) ∧
      ((Graph.mk 2 [[0, 0], [0, 0]]).Symm → g2.Symm)) :=
  undirected_mutators_symmetric (Graph.mk 2 [[0, 0], [0, 0]]) 0 1 5
    (by decide) (by decide) (by decide)

theorem SquareMat_replicate (n : ℕ) :
    SquareMat n (List.replicate n (List.replicate n (0 : ℚ))) := by
  refine ⟨List.length_replicate _ _, fun row hr => ?_⟩
  rw [List.eq_of_mem_replicate hr]
  exact List.length_replicate _ _

theorem fe_go_square {n : ℕ} :
    ∀ (edges : List (ℕ × ℕ)) (mat mat' : List (List ℚ)), SquareMat n mat →
      DGraph.fe_go n edges mat = some mat' → SquareMat n mat' := by
  intro edges
  induction edges with
  | nil =>
    intro mat mat' hsq h
    cases h
    exact hsq
  | cons e rest ih =>
    intro mat mat' hsq h
    unfold DGraph.fe_go at h
    split at h
    · cases h
    · split at h
      · cases h
      · split at h
        · cases h
        · split at h
          · cases h
          · rename_i mat2 hset
            obtain ⟨row, v, hrow, hv, rfl⟩ := setCell?_eq_some hset
            exact ih _ _ (SquareMat_set _ hsq hrow) h

theorem fwe_go_square {n : ℕ} :
    ∀ (edges : List (ℕ × ℕ × ℚ)) (mat mat' : List (List ℚ)), SquareMat n mat →
      DGraph.fwe_go n edges mat = some mat' → SquareMat n mat' := by
  intro edges
  induction edges with
  | nil =>
    intro mat mat' hsq h
    cases h
    exact hsq
  | cons e rest ih =>
    intro mat mat' hsq h
    unfold DGraph.fwe_go at h
    split at h
    · cases h
    · split at h
      · cases h
      · split at h
        · cases h
        · split at h
          · cases h
          · rename_i mat2 hset
            obtain ⟨row, v, hrow, hv, rfl⟩ := setCell?_eq_some hset
            exact ih _ _ (SquareMat_set _ hsq hrow) h

theorem Square_add_node {g : DGraph} (hsq : g.Square) : g.add_node.Square := by
  constructor
  · show ((g.adj_mat.map fun row => row ++ [0]) ++
      [List.replicate (g.n_nodes + 1) 0]).length = g.n_nodes + 1
    rw [List.length_append, List.length_map, hsq.1]
    rfl
  · intro row hrow
    rcases List.mem_append.mp hrow with h | h
    · obtain ⟨r, hr, rfl⟩ := List.mem_map.mp h
      show (r ++ [0]).length = g.n_nodes + 1
      rw [List.length_append, hsq.2 r hr]
      rfl
    · rw [List.mem_singleton.mp h]
      exact List.length_replicate _ _

theorem reachableD_square : ∀ {g : DGraph}, ReachableD g → g.Square := by
  intro g h
  induction h with
  | new => exact ⟨rfl, fun row hr => absurd hr (List.not_mem_nil row)⟩
  | from_edges hfe =>
    rename_i n es g2
    unfold DGraph.from_edges at hfe
    cases hgo : DGraph.fe_go n es (List.replicate n (List.replicate n 0)) with
    | none => rw [hgo] at hfe; cases hfe
    | some mat' =>
      rw [hgo] at hfe
      cases hfe
      exact fe_go_square es _ mat' (SquareMat_replicate n) hgo
  | from_weighted_edges hfe =>
    rename_i n es g2
    unfold DGraph.from_weighted_edges at hfe
    cases hgo : DGraph.fwe_go n es (List.replicate n (List.replicate n 0)) with
    | none => rw [hgo] at hfe; cases hfe
    | some mat' =>
      rw [hgo] at hfe
      cases hfe
      exact fwe_go_square es _ mat' (SquareMat_replicate n) hgo
  | from_adjacency_matrix hfa =>
    rename_i m g2
    unfold DGraph.from_adjacency_matrix at hfa
    split at hfa
    · rename_i hall
      cases hfa
      exact ⟨rfl, hall⟩
    · cases hfa
  | add_node _ ih => exact Square_add_node ih
  | add_edge _ hadd ih =>
    rename_i g1 g2 src dest _
    unfold DGraph.add_edge at hadd
    split at hadd
    · cases hadd
    · split at hadd
      · cases hadd
      · split at hadd
        · cases hadd
        · rename_i mat2 hset
          obtain ⟨row, v, hrow, hv, rfl⟩ := setCell?_eq_some hset
          cases hadd
          exact SquareMat_set _ ih hrow
  | add_weighted_edge _ hadd ih =>
    rename_i g1 g2 src dest w _
    unfold DGraph.add_weighted_edge at hadd
    split at hadd
    · cases hadd
    · split at hadd
      · cases hadd
      · split at hadd
        · cases hadd
        · rename_i mat2 hset
          obtain ⟨row, v, hrow, hv, rfl⟩ := setCell?_eq_some hset
          cases hadd
          exact SquareMat_set _ ih hrow

/-- **C7.** Every `DGraph` reachable from the constructors by successful
operations has an adjacency matrix with exactly `n_nodes` rows, each of
length `n_nodes`; and `add_node` grows the matrix by exactly one zero
entry at the end of every existing row plus one zero row of the new
length, incrementing the node count by one. -/
theorem square_invariant :
    (∀ g : DGraph, ReachableD g → g.Square) ∧
    (∀ g : DGraph, g.add_node.n_nodes = g.n_nodes + 1 ∧
      g.add_node.adj_mat =
        (g.adj_mat.map fun row => row ++ [0]) ++
          [List.replicate (g.n_nodes + 1) 0]) :=
  ⟨fun _ h => reachableD_square h, fun _ => ⟨rfl, rfl⟩⟩

/-- Witness for C7: the graph obtained by `new` followed by `add_node` is
reachable and square, with one node. -/
theorem square_invariant_witness :
    DGraph.new.add_node.Square ∧ DGraph.new.add_node.n_nodes = 1 :=
  ⟨square_invariant.1 DGraph.new.add_node
      (ReachableD.add_node ReachableD.new),
    (square_invariant.2 DGraph.new).1⟩

theorem EdgesInv_insert {n : ℕ} {done : List (ℕ × ℕ)} {mat : List (List ℚ)}
    {e : ℕ × ℕ} {row : List ℚ} (hinv : EdgesInv n done mat)
    (hrow : mat.get? e.1 = some row) (hj : e.2 < row.length) :
    EdgesInv n (done ++ [e]) (mat.set e.1 (row.set e.2 1)) := by
  refine ⟨SquareMat_set _ hinv.1 hrow, fun i hi j hj2 => ?_⟩
  rw [cellM_set 1 hrow hj i j]
  by_cases hij : e.1 = i ∧ e.2 = j
  · obtain ⟨h1, h2⟩ := hij
    subst h1
    subst h2
    rw [if_pos ⟨rfl, rfl⟩,
      if_pos (List.mem_append_right _ (List.mem_singleton.mpr rfl))]
  · rw [if_neg hij, hinv.2 i hi j hj2]
    have hne : (i, j) ≠ e := fun hc => hij ⟨by rw [← hc], by rw [← hc]⟩
    by_cases hdone : (i, j) ∈ done
    · rw [if_pos hdone, if_pos (List.mem_append_left _ hdone)]
    · rw [if_neg hdone, if_neg (fun hc => by
        rcases List.mem_append.mp hc with h | h
        · exact hdone h
        · exact hne (List.mem_singleton.mp h))]

theorem fe_go_cons_step {n : ℕ} {mat : List (List ℚ)} {e : ℕ × ℕ}
    (he1 : e.1 < n) (he2 : e.2 < n) (hcell : cellM mat e.1 e.2 = some 0)
    {mat2 : List (List ℚ)} (hset : setCell? mat e.1 e.2 1 = some mat2)
    (rest : List (ℕ × ℕ)) :
    DGraph.fe_go n (e :: rest) mat = DGraph.fe_go n rest mat2 := by
  simp only [DGraph.fe_go]
  rw [if_neg (by push_neg; exact ⟨he1, he2⟩)]
  simp only [hcell, hset]
  rw [if_neg (by norm_num)]

theorem fe_go_success {n : ℕ} :
    ∀ (edges done : List (ℕ × ℕ)) (mat : List (List ℚ)),
      EdgesInv n done mat →
      (∀ e ∈ edges, e.1 < n ∧ e.2 < n) →
      (∀ e ∈ edges, e ∉ done) →
      edges.Nodup →
      ∃ mat', DGraph.fe_go n edges mat = some mat' ∧
        EdgesInv n (done ++ edges) mat' := by
  intro edges
  induction edges with
  | nil =>
    intro done mat hinv _ _ _
    exact ⟨mat, rfl, by simpa using hinv⟩
  | cons e rest ih =>
    intro done mat hinv hvalid hdisj hnd
    obtain ⟨he1, he2⟩ := hvalid e (List.mem_cons_self _ _)
    have hnotdone : e ∉ done := hdisj e (List.mem_cons_self _ _)
    have hcell : cellM mat e.1 e.2 = some 0 := by
      have hc := hinv.2 e.1 he1 e.2 he2
      rwa [if_neg hnotdone] at hc
    obtain ⟨row, hrow, hvj, hset⟩ := setCell?_some_of_cell 1 hcell
    have hinv2 := EdgesInv_insert hinv hrow (lget?_lt hvj)
    have hdisj2 : ∀ x ∈ rest, x ∉ done ++ [e] := by
      intro x hx hmem
      rcases List.mem_append.mp hmem with h | h
      · exact hdisj x (List.mem_cons_of_mem _ hx) h
      · rw [List.mem_singleton.mp h] at hx
        exact (List.nodup_cons.mp hnd).1 hx
    obtain ⟨mat', hgo, hinv'⟩ := ih (done ++ [e]) _ hinv2
      (fun x hx => hvalid x (List.mem_cons_of_mem _ hx)) hdisj2
      (List.nodup_cons.mp hnd).2
    refine ⟨mat', by rw [fe_go_cons_step he1 he2 hcell hset]; exact hgo, ?_⟩
    rwa [List.append_assoc, List.singleton_append] at hinv'

theorem fe_go_failure {n : ℕ} :
    ∀ (edges done : List (ℕ × ℕ)) (mat : List (List ℚ)),
      EdgesInv n done mat →
      ((∃ e ∈ edges, n ≤ e.1 ∨ n ≤ e.2) ∨ (∃ e ∈ edges, e ∈ done) ∨
        ¬ edges.Nodup) →
      DGraph.fe_go n edges mat = none := by
  intro edges
  induction edges with
  | nil =>
    intro done mat _ hbad
    exfalso
    rcases hbad with ⟨e, he, _⟩ | ⟨e, he, _⟩ | hnd
    · cases he
    · cases he
    · exact hnd List.nodup_nil
  | cons e rest ih =>
    intro done mat hinv hbad
    by_cases hguard : n ≤ e.1 ∨ n ≤ e.2
    · unfold DGraph.fe_go
      rw [if_pos hguard]
    · push_neg at hguard
      obtain ⟨he1, he2⟩ := hguard
      by_cases hdup : e ∈ done
      · have hcell : cellM mat e.1 e.2 = some 1 := by
          have hc := hinv.2 e.1 he1 e.2 he2
          rwa [if_pos hdup] at hc
        unfold DGraph.fe_go
        rw [if_neg (by push_neg; exact ⟨he1, he2⟩)]
        simp only [hcell]
        rw [if_pos (by norm_num)]
      · have hcell : cellM mat e.1 e.2 = some 0 := by
          have hc := hinv.2 e.1 he1 e.2 he2
          rwa [if_neg hdup] at hc
        obtain ⟨row, hrow, hvj, hset⟩ := setCell?_some_of_cell 1 hcell
        have hinv2 := EdgesInv_insert hinv hrow (lget?_lt hvj)
        have hbad2 : (∃ x ∈ rest, n ≤ x.1 ∨ n ≤ x.2) ∨
            (∃ x ∈ rest, x ∈ done ++ [e]) ∨ ¬ rest.Nodup := by
          rcases hbad with ⟨x, hx, hxb⟩ | ⟨x, hx, hxd⟩ | hnd
          · rcases List.mem_cons.mp hx with rfl | hx2
            · exact absurd hxb (by push_neg; exact ⟨he1, he2⟩)
            · exact Or.inl ⟨x, hx2, hxb⟩
          · rcases List.mem_cons.mp hx with rfl | hx2
            · exact absurd hxd hdup
            · exact Or.inr (Or.inl ⟨x, hx2, List.mem_append_left _ hxd⟩)
          · rw [List.nodup_cons] at hnd
            push_neg at hnd
            by_cases hmem : e ∈ rest
            · exact Or.inr (Or.inl ⟨e, hmem,
                List.mem_append_right _ (List.mem_singleton.mpr rfl)⟩)
            · exact Or.inr (Or.inr (hnd hmem))
        rw [fe_go_cons_step he1 he2 hcell hset]
        exact ih (done ++ [e]) _ hinv2 hbad2

/-- **C6.** `from_edges(nodeCount, edges)` fails when some edge index is
`>= nodeCount` or when a `(src, dest)` pair repeats (the repeat is caught
because the target cell is already `1.0`, hence non-zero); otherwise it
succeeds and the resulting adjacency matrix is `n × n` with cell
`[src][dest]` equal to `1.0` for exactly the listed edges and `0.0` in
every other cell. -/
theorem from_edges_spec (n : ℕ) (edges : List (ℕ × ℕ)) :
    (((∃ e ∈ edges, n ≤ e.1 ∨ n ≤ e.2) ∨ ¬ edges.Nodup) →
      DGraph.from_edges n edges = none) ∧
    ((∀ e ∈ edges, e.1 < n ∧ e.2 < n) → edges.Nodup →
      ∃ g, DGraph.from_edges n edges = some g ∧ g.n_nodes = n ∧ g.Square ∧
        ∀ i < n, ∀ j < n,
          cellM g.adj_mat i j = some (if (i, j) ∈ edges then 1 else 0)) := by
  have hinit : EdgesInv n [] (List.replicate n (List.replicate n 0)) := by
    refine ⟨SquareMat_replicate n, fun i hi j hj => ?_⟩
    rw [cellM_of_row (show _ = some (List.replicate n (0 : ℚ)) by
      rw [lget?_replicate, if_pos hi]), lget?_replicate, if_pos hj]
    simp
  constructor
  · intro hbad
    unfold DGraph.from_edges
    rw [fe_go_failure edges [] _ hinit (by
      rcases hbad with h | h
      · exact Or.inl h
      · exact Or.inr (Or.inr h))]
    rfl
  · intro hvalid hnd
    obtain ⟨mat', hgo, hinv'⟩ := fe_go_success edges [] _ hinit hvalid
      (fun x _ hc => absurd hc (List.not_mem_nil x)) hnd
    refine ⟨⟨n, mat'⟩, ?_, rfl, hinv'.1, fun i hi j hj => hinv'.2 i hi j hj⟩
    unfold DGraph.from_edges
    rw [hgo]
    rfl

/-- Witness for C6: building a 2-node graph from the single edge
`(0, 1)`. -/
theorem from_edges_spec_witness :
    ∃ g, DGraph.from_edges 2 [(0, 1)] = some g ∧ g.n_nodes = 2 ∧
      g.Square ∧ ∀ i < 2, ∀ j < 2, cellM g.adj_mat i j =
        some (if (i, j) ∈ [(0, 1)] then 1 else 0) :=
  (from_edges_spec 2 [(0, 1)]).2 (by decide) (by decide)


theorem cellM_nonneg {mat : List (List ℚ)}
    (hw : ∀ row ∈ mat, ∀ v ∈ row, 0 ≤ v) {i j : ℕ} {w : ℚ}
    (h : cellM mat i j = some w) : 0 ≤ w := by
  cases hrow : mat.get? i with
  | none => rw [cellM_of_no_row hrow] at h; cases h
  | some row =>
    rw [cellM_of_row hrow] at h
    exact hw row (lmem_of_get? hrow) w (lmem_of_get? h)

theorem relaxAll_nonneg {g : DGraph} {current s : ℕ}
    (hw : ∀ row ∈ g.adj_mat, ∀ v ∈ row, 0 ≤ v) :
    ∀ (nodes : List ℕ) (dist : List Dist) (visited : List Bool)
      (dist' : List Dist),
      relaxAll g current nodes dist visited = some dist' →
      (∀ i d, dist.get? i = some d → DNonneg d) →
      dist.get? s = some (Dist.fin 0) →
      dist'.length = dist.length ∧
      (∀ i d, dist'.get? i = some d → DNonneg d) ∧
      dist'.get? s = some (Dist.fin 0) := by
  intro nodes
  induction nodes with
  | nil =>
    intro dist visited dist' h hnn hz
    cases h
    exact ⟨rfl, hnn, hz⟩
  | cons nd rest ih =>
    intro dist visited dist' h hnn hz
    simp only [relaxAll] at h
    split at h
    · cases h
    · exact ih _ _ _ h hnn hz
    · rename_i w hedge
      split at h
      · cases h
      · exact ih _ _ _ h hnn hz
      · split at h
        · rename_i dn dc hdn hdc
          split at h
          · rename_i hlt
            have h0w : 0 ≤ w :=
              cellM_nonneg hw (get_edge_some_some hedge).2.2.1
            have hndlt := lget?_lt hdn
            have hnn2 : ∀ i d, (dist.set nd (dc.add w)).get? i = some d →
                DNonneg d := by
              intro i d hd
              by_cases hi : nd = i
              · subst hi
                rw [lget?_set_self _ _ _ hndlt] at hd
                cases hd
                cases dc with
                | inf => exact trivial
                | fin q =>
                  have hq : DNonneg (Dist.fin q) := hnn current _ hdc
                  exact add_nonneg hq h0w
              · rw [lget?_set_ne _ _ _ _ hi] at hd
                exact hnn i d hd
            have hns : nd ≠ s := by
              intro hcc
              rw [hcc] at hdn
              have hdn0 : Dist.fin 0 = dn := Option.some.inj (hz.symm.trans hdn)
              rw [← hdn0] at hlt
              cases dc with
              | inf => simp [Dist.add, Dist.lt] at hlt
              | fin q =>
                have hq : DNonneg (Dist.fin q) := hnn current _ hdc
                have hq2 : (0 : ℚ) ≤ q := hq
                simp [Dist.add, Dist.lt] at hlt
                linarith
            have hz2 : (dist.set nd (dc.add w)).get? s = some (Dist.fin 0) := by
              rw [lget?_set_ne _ _ _ _ hns]
              exact hz
            obtain ⟨hlen, hnn3, hz3⟩ := ih _ _ _ h hnn2 hz2
            rw [List.length_set] at hlen
            exact ⟨hlen, hnn3, hz3⟩
          · exact ih _ _ _ h hnn hz
        · cases h

theorem dijkstraStep_nonneg {g : DGraph} {s : ℕ}
    (hw : ∀ row ∈ g.adj_mat, ∀ v ∈ row, 0 ≤ v)
    {dist : List Dist} {visited : List Bool} {dist' : List Dist}
    {visited' : List Bool}
    (h : dijkstraStep g dist visited = some (dist', visited'))
    (hnn : ∀ i d, dist.get? i = some d → DNonneg d)
    (hz : dist.get? s = some (Dist.fin 0)) :
    dist'.length = dist.length ∧
    (∀ i d, dist'.get? i = some d → DNonneg d) ∧
    dist'.get? s = some (Dist.fin 0) := by
  unfold dijkstraStep at h
  split at h
  · cases h
  · rename_i current hmdn
    split at h
    · split at h
      · cases h
      · rename_i d2 hrel
        cases h
        exact relaxAll_nonneg hw _ _ _ _ hrel hnn hz
    · cases h

theorem dijkstraLoop_nonneg {g : DGraph} {s : ℕ}
    (hw : ∀ row ∈ g.adj_mat, ∀ v ∈ row, 0 ≤ v) :
    ∀ (k : ℕ) (dist : List Dist) (visited : List Bool) (dist' : List Dist),
      dijkstraLoop g k dist visited = some dist' →
      (∀ i d, dist.get? i = some d → DNonneg d) →
      dist.get? s = some (Dist.fin 0) →
      dist'.length = dist.length ∧ dist'.get? s = some (Dist.fin 0) := by
  intro k
  induction k with
  | zero =>
    intro dist visited dist' h hnn hz
    cases h
    exact ⟨rfl, hz⟩
  | succ k2 ih =>
    intro dist visited dist' h hnn hz
    simp only [dijkstraLoop] at h
    split at h
    · cases h
    · rename_i d2 v2 hstep
      obtain ⟨hlen, hnn2, hz2⟩ := dijkstraStep_nonneg hw hstep hnn hz
      obtain ⟨hlen2, hz3⟩ := ih d2 v2 dist' h hnn2 hz2
      exact ⟨hlen2.trans hlen, hz3⟩

/-- **C3 (amended).** For every square graph whose edge weights are all
non-negative and every valid source `s`, whenever `dijkstra(g, s)` does
return a distance vector, that vector has length `nodeCount()` and entry
`s` equal to `0.0`. (The original claim asserted unconditionally that a
vector is returned; `dijkstra` instead fails when some node is
unreachable from `s`, as the counterexample shows, so the conclusion is
conditional on a vector being produced.) -/
theorem dijkstra_nonneg_spec (g : DGraph) (s : ℕ)
    (hw : ∀ row ∈ g.adj_mat, ∀ v ∈ row, 0 ≤ v)
    (hs : s < g.n_nodes) (d : List Dist) (hd : dijkstra g s = some d) :
    d.length = g.n_nodes ∧ d.get? s = some (Dist.fin 0) := by
  have hget : (List.replicate g.get_n_nodes Dist.inf).get? s =
      some Dist.inf := by
    rw [lget?_replicate]
    exact if_pos hs
  simp only [dijkstra, hget] at hd
  have hlen0 : ((List.replicate g.get_n_nodes Dist.inf).set s
      (Dist.fin 0)).length = g.n_nodes := by
    rw [List.length_set, List.length_replicate]
    rfl
  have hnn0 : ∀ i d2, ((List.replicate g.get_n_nodes Dist.inf).set s
      (Dist.fin 0)).get? i = some d2 → DNonneg d2 := by
    intro i d2 hd2
    by_cases hsi : s = i
    · subst hsi
      rw [lget?_set_self _ _ _ (by rw [List.length_replicate]; exact hs)] at hd2
      cases hd2
      exact le_refl (0 : ℚ)
    · rw [lget?_set_ne _ _ _ _ hsi, lget?_replicate] at hd2
      split at hd2
      · cases hd2
        exact trivial
      · cases hd2
  have hz0 : ((List.replicate g.get_n_nodes Dist.inf).set s
      (Dist.fin 0)).get? s = some (Dist.fin 0) :=
    lget?_set_self _ _ _ (by rw [List.length_replicate]; exact hs)
  obtain ⟨hlen, hz⟩ := dijkstraLoop_nonneg hw _ _ _ _ hd hnn0 hz0
  exact ⟨hlen.trans hlen0, hz⟩

/-- Witness for the amended C3: the one-node graph with no edges. -/
theorem dijkstra_nonneg_spec_witness :
    ([Dist.fin 0] : List Dist).length = (DGraph.mk 1 [[0]]).n_nodes ∧
    ([Dist.fin 0] : List Dist).get? 0 = some (Dist.fin 0) :=
  dijkstra_nonneg_spec ⟨1, [[0]]⟩ 0 (by decide) (by decide) [Dist.fin 0]
    (by decide)


theorem mdnAux_prop {dist : List Dist} {visited : List Bool} :
    ∀ (nodes : List ℕ) (md : Dist) (idx r : ℕ),
      mdnAux dist visited nodes md idx = some r →
      r = idx ∨ (∃ d, dist.get? r = some d ∧ d ≠ Dist.inf ∧
        visited.get? r = some false) := by
  intro nodes
  induction nodes with
  | nil =>
    intro md idx r h
    cases h
    exact Or.inl rfl
  | cons node rest ih =>
    intro md idx r h
    simp only [mdnAux] at h
    split at h
    · cases h
    · rename_i d hd
      split at h
      · rename_i hlt
        split at h
        · cases h
        · rename_i v hv
          split at h
          · exact ih _ _ _ h
          · rename_i hvt
            rcases ih _ _ _ h with rfl | hr
            · refine Or.inr ⟨d, hd, ?_, ?_⟩
              · intro hc
                subst hc
                simp [Dist.lt] at hlt
              · rw [hv, Bool.not_eq_true] at *
                rw [hv]
                exact congrArg some (Bool.not_eq_true v ▸ hvt)
            · exact Or.inr hr
      · exact ih _ _ _ h

theorem min_distance_node_prop {g : DGraph} {dist : List Dist}
    {visited : List Bool} {r : ℕ}
    (h : min_distance_node g dist visited = some r) :
    r = g.n_nodes ∨ ∃ d, dist.get? r = some d ∧ d ≠ Dist.inf ∧
      visited.get? r = some false :=
  mdnAux_prop g.get_nodes Dist.inf g.n_nodes r h

theorem relaxAll_reach {g : DGraph} {s current : ℕ} :
    ∀ (nodes : List ℕ) (dist : List Dist) (visited : List Bool)
      (dist' : List Dist),
      relaxAll g current nodes dist visited = some dist' →
      (∀ i d, dist.get? i = some d → d ≠ Dist.inf → Reaches g s i) →
      dist'.length = dist.length ∧
      (∀ i d, dist'.get? i = some d → d ≠ Dist.inf → Reaches g s i) := by
  intro nodes
  induction nodes with
  | nil =>
    intro dist visited dist' h hI2
    cases h
    exact ⟨rfl, hI2⟩
  | cons nd rest ih =>
    intro dist visited dist' h hI2
    simp only [relaxAll] at h
    split at h
    · cases h
    · exact ih _ _ _ h hI2
    · rename_i w hedge
      split at h
      · cases h
      · exact ih _ _ _ h hI2
      · split at h
        · rename_i dn dc hdn hdc
          split at h
          · have hup : ∀ i d, (dist.set nd (dc.add w)).get? i = some d →
                d ≠ Dist.inf → Reaches g s i := by
              intro i d hd hne
              by_cases hni : nd = i
              · subst hni
                rw [lget?_set_self _ _ _ (lget?_lt hdn)] at hd
                cases hd
                obtain ⟨hc1, hc2, hcell, hw0⟩ := get_edge_some_some hedge
                cases dc with
                | inf => exact absurd rfl hne
                | fin q =>
                  exact Reaches.step
                    (hI2 current _ hdc fun hc => Dist.noConfusion hc)
                    hcell hw0
              · rw [lget?_set_ne _ _ _ _ hni] at hd
                exact hI2 i d hd hne
            obtain ⟨hlen, hI2b⟩ := ih _ _ _ h hup
            rw [List.length_set] at hlen
            exact ⟨hlen, hI2b⟩
          · exact ih _ _ _ h hI2
        · cases h

theorem dijkstraStep_reach {g : DGraph} {s : ℕ} {dist : List Dist}
    {visited : List Bool} {dist' : List Dist} {visited' : List Bool}
    (h : dijkstraStep g dist visited = some (dist', visited'))
    (hlv : visited.length = g.n_nodes)
    (hI2 : ∀ i d, dist.get? i = some d → d ≠ Dist.inf → Reaches g s i)
    (hI3 : ∀ i, visited.get? i = some true → Reaches g s i) :
    dist'.length = dist.length ∧ visited'.length = visited.length ∧
    (∀ i d, dist'.get? i = some d → d ≠ Dist.inf → Reaches g s i) ∧
    (∀ i, visited'.get? i = some true → Reaches g s i) ∧
    visited'.count true = visited.count true + 1 := by
  unfold dijkstraStep at h
  split at h
  · cases h
  · rename_i current hmdn
    split at h
    · rename_i hcur
      split at h
      · cases h
      · rename_i d2 hrel
        cases h
        have hcurn : current < g.n_nodes := hlv ▸ hcur
        rcases min_distance_node_prop hmdn with rfl | ⟨dcur, hdcur, hdne, hvf⟩
        · exact absurd hcurn (Nat.lt_irrefl _)
        · have hreach : Reaches g s current := hI2 current dcur hdcur hdne
          have hI3b : ∀ i, (visited.set current true).get? i = some true →
              Reaches g s i := by
            intro i hi
            by_cases hci : current = i
            · exact hci ▸ hreach
            · rw [lget?_set_ne _ _ _ _ hci] at hi
              exact hI3 i hi
          obtain ⟨hlen, hI2b⟩ := relaxAll_reach _ _ _ _ hrel hI2
          exact ⟨hlen, List.length_set _ _ _, hI2b, hI3b,
            lcount_set_true visited current hvf⟩
    · cases h

theorem dijkstraLoop_unreachable {g : DGraph} {s t : ℕ}
    (ht : t < g.n_nodes) (hnr : ¬ Reaches g s t) :
    ∀ (k : ℕ) (dist : List Dist) (visited : List Bool),
      dist.length = g.n_nodes → visited.length = g.n_nodes →
      (∀ i d, dist.get? i = some d → d ≠ Dist.inf → Reaches g s i) →
      (∀ i, visited.get? i = some true → Reaches g s i) →
      g.n_nodes ≤ visited.count true + k →
      dijkstraLoop g k dist visited = none := by
  intro k
  induction k with
  | zero =>
    intro dist visited hld hlv hI2 hI3 hcnt
    exfalso
    obtain ⟨v, hv⟩ := lget?_of_lt visited t (hlv ▸ ht)
    cases v
    · have := lcount_true_lt visited t hv
      omega
    · exact hnr (hI3 t hv)
  | succ k2 ih =>
    intro dist visited hld hlv hI2 hI3 hcnt
    simp only [dijkstraLoop]
    cases hstep : dijkstraStep g dist visited with
    | none => rfl
    | some pair =>
      obtain ⟨d2, v2⟩ := pair
      obtain ⟨hld2, hlv2, hI2b, hI3b, hcnt2⟩ :=
        dijkstraStep_reach hstep hlv hI2 hI3
      exact ih d2 v2 (hld2.trans hld) (hlv2.trans hlv) hI2b hI3b
        (by omega)

/-- **C4.** When some node `t` is unreachable from the (valid) source of a
non-empty square graph, `dijkstra` cannot complete: every finite tentative
distance belongs to a reachable node, so `t` is never selected; after at
most `n - 1` successful iterations every remaining unvisited node has
distance `+infinity`, `min_distance_node` returns `nodeCount()` — an
out-of-range index — and the write `visited[current] = true` fails.
`dijkstra` therefore returns a vector only when every node is reachable
from the source. -/
theorem dijkstra_unreachable_fails (g : DGraph) (s t : ℕ)
    (hs : s < g.n_nodes) (ht : t < g.n_nodes) (hnr : ¬ Reaches g s t) :
    dijkstra g s = none := by
  have hget : (List.replicate g.get_n_nodes Dist.inf).get? s =
      some Dist.inf := by
    rw [lget?_replicate]
    exact if_pos hs
  simp only [dijkstra, hget]
  have hI20 : ∀ i d, ((List.replicate g.get_n_nodes Dist.inf).set s
      (Dist.fin 0)).get? i = some d → d ≠ Dist.inf → Reaches g s i := by
    intro i d hd hne
    by_cases hsi : s = i
    · exact hsi ▸ Reaches.refl
    · rw [lget?_set_ne _ _ _ _ hsi, lget?_replicate] at hd
      split at hd
      · cases hd
        exact absurd rfl hne
      · cases hd
  have hI30 : ∀ i, (List.replicate g.get_n_nodes false).get? i =
      some true → Reaches g s i := by
    intro i hi
    rw [lget?_replicate] at hi
    split at hi
    · simp at hi
    · cases hi
  exact dijkstraLoop_unreachable ht hnr g.get_n_nodes _ _
    (by rw [List.length_set, List.length_replicate]; rfl)
    (by rw [List.length_replicate]; rfl)
    hI20 hI30 (Nat.le_add_left _ _)

theorem reaches_loop2_eq_zero :
    ∀ t2, Reaches ⟨2, [[0, 0], [0, 1]]⟩ 0 t2 → t2 = 0 := by
  intro t2 h
  induction h with
  | refl => rfl
  | step hu hcell hw0 ih =>
    rename_i u v w
    subst ih
    exfalso
    rcases v with _ | _ | v3
    · exact hw0 (Option.some.inj hcell).symm
    · exact hw0 (Option.some.inj hcell).symm
    · exact Option.noConfusion hcell

/-- Witness for C4: on the two-node graph whose only edge is the self-loop
`1 -> 1`, node 1 is unreachable from source 0 and `dijkstra` fails. -/
theorem dijkstra_unreachable_fails_witness :
    dijkstra ⟨2, [[0, 0], [0, 1]]⟩ 0 = none :=
  dijkstra_unreachable_fails ⟨2, [[0, 0], [0, 1]]⟩ 0 1 (by decide)
    (by decide) fun hc => Nat.one_ne_zero (reaches_loop2_eq_zero 1 hc)

/-- Witness for C5 on the empty graphs with index 0. -/
theorem invalid_index_rejected_witness :
    DGraph.new.get_edge 0 0 = none ∧ DGraph.new.add_edge 0 0 = none ∧
    DGraph.new.add_weighted_edge 0 0 1 = none ∧
    Graph.new.get_edge 0 0 = none ∧ Graph.new.add_connection 0 0 = none ∧
    Graph.new.add_weighted_connection 0 0 1 = none ∧
    Graph.new.add_undirected_connection 0 0 = none ∧
    Graph.new.add_undirected_weighted_connection 0 0 1 = none :=
  invalid_index_rejected DGraph.new Graph.new 0 0 1
    (Or.inl (Nat.le_refl 0)) (Or.inl (Nat.le_refl 0))

end Graphst
